import Mathlib

/-!
Shallow embedding of the pass-prediction and recording-scheduling engine of
the open_weather automated ground station (tle.js, scheduler.js, and the
cron-driven scheduler embedded in start_scheduler.sh).

Modelling conventions:
* A stored pass record (the JSON objects of the passes file) is `Pass`.
  Its aggregate fields are kept as exact rationals; the JS code stores them
  as 2-decimal strings produced by toFixed, which we treat as the value
  itself (formatting is outside the model).
* Date/time strings are kept as `String`; the external luxon parser
  DateTime.fromFormat is abstracted as a function parameter
  `parseDT : String → String → Int` (milliseconds since the epoch).
* File-system effects are reified as a list of `FsOp` values describing the
  sequence of fs calls a function performs.
* The satellite.js propagation of one time step is abstracted as a `Sample`:
  whether propagate returned a position, and, when it did, the computed
  great-circle distance and look-angle elevation for that instant.
  Time is the index of the one-minute grid step.
-/

namespace OpenWeather

/-- A stored pass record, as built by processPasses in tle.js:
frequency, satellite, date ("dd LLL yyyy"), time ("HH:mm"), duration,
avgElevation, maxElevation, avgDistance, minDistance, recorded. -/
structure Pass where
  frequency : String
  satellite : String
  date : String
  time : String
  duration : Int
  avgElevation : ℚ
  maxElevation : ℚ
  avgDistance : ℚ
  minDistance : ℚ
  recorded : Bool
deriving DecidableEq, Repr

/-- The duplicate test of processPasses (tle.js): two records are the same
opportunity iff satellite, date and time (minute resolution) all match. -/
def sameKey (q p : Pass) : Bool :=
  q.satellite == p.satellite && q.date == p.date && q.time == p.time

/-- existingPasses.some (existingPass => sameKey existingPass newPass). -/
def hasKey (l : List Pass) (p : Pass) : Bool :=
  l.any (fun q => sameKey q p)

/-- One iteration of the forEach merge loop of processPasses: push the new
pass onto the growing list unless a duplicate is already present. -/
def mergeStep (acc : List Pass) (p : Pass) : List Pass :=
  if hasKey acc p then acc else acc ++ [p]

/-- The deduplicating merge loop of processPasses (tle.js lines 186-197):
fold every incoming pass into the existing list. -/
def mergePasses (existing incoming : List Pass) : List Pass :=
  incoming.foldl mergeStep existing

/-- No two stored records share the identity key. -/
def NoDupKey (l : List Pass) : Prop :=
  l.Pairwise (fun a b => sameKey a b = false)

/-- A reified file-system call: fs.writeFileSync, fs.copyFileSync,
fs.renameSync. Only the paths matter for the atomicity analysis. -/
inductive FsOp where
  | write (path : String)
  | copy (src dst : String)
  | rename (src dst : String)
deriving DecidableEq, Repr

/-- Stable insertion used to model the (stable) Array.prototype.sort with a
boolean comparator le. -/
def insertLe (le : Pass → Pass → Bool) (p : Pass) : List Pass → List Pass
  | [] => [p]
  | q :: qs => if le p q then p :: q :: qs else q :: insertLe le p qs

/-- Stable sort by the boolean comparator le. -/
def sortLe (le : Pass → Pass → Bool) : List Pass → List Pass
  | [] => []
  | p :: ps => insertLe le p (sortLe le ps)

/-- Ascending comparator of savePasses (tle.js lines 42-46): compare the
luxon timestamps parsed from the date and time fields. -/
def saveLe (parseDT : String → String → Int) (a b : Pass) : Bool :=
  parseDT a.date a.time ≤ parseDT b.date b.time

/-- savePasses (tle.js lines 40-48): sort the passes ascending by their
parsed date-time, then write them to the passes file with a single direct
fs.writeFileSync of the canonical path (no temporary file, no rename).
Returns the sorted list together with the file-system calls performed. -/
def savePasses (parseDT : String → String → Int) (file : String)
    (passes : List Pass) : List Pass × List FsOp :=
  (sortLe (saveLe parseDT) passes, [FsOp.write file])

/-- The persistence tail of processData (the cron scheduler embedded in
start_scheduler.sh, lines 205-212): copy the canonical file to a .bak
backup, write the new content to a .tmp path, then rename the .tmp path
onto the canonical path. -/
def processDataSaveOps (file : String) : List FsOp :=
  [FsOp.copy file (file ++ ".bak"),
   FsOp.write (file ++ ".tmp"),
   FsOp.rename (file ++ ".tmp") file]

/-- The emptiness test of readExistingPasses, `data.trim() === ""`: the raw
content consists of whitespace characters only. -/
def isBlank (s : String) : Bool :=
  s.data.all Char.isWhitespace

/-- readExistingPasses (tle.js lines 23-37). The file system is abstracted
as `Option String` (none = the passes file does not exist) and JSON.parse
as `parse : String → Option (List Pass)` (none = JSON.parse threw). The
boolean of the result records whether a parse failure was reported via
logger.error. -/
def readExistingPasses (file : Option String)
    (parse : String → Option (List Pass)) : List Pass × Bool :=
  match file with
  | none => ([], false)
  | some data =>
    if isBlank data then ([], false)
    else
      match parse data with
      | some ps => (ps, false)
      | none => ([], true)

/-- One grid step of findSatellitePasses, abstracting the satellite.js
calls: hasPos is whether satellite.propagate returned a position (the
positionEci truthiness test); when it did, distance is the geolib
great-circle distance to the configured location and elevation the
look-angle elevation in degrees. -/
structure Sample where
  hasPos : Bool
  elevation : ℚ
  distance : ℚ
deriving DecidableEq, Repr

/-- A raw pass object as pushed by findSatellitePasses. The JS objects
pushed mid-window carry maxElevation, avgElevation, avgDistance and
minDistance; the object pushed for a pass still open at the window end
carries only the two elevation aggregates, so the distance aggregates are
Options (none = the key is absent from the object). The fields elevs and
dists record the contents of the elevation and distance accumulators at
the moment of the push; they are the sample values of the un-buffered
interval the aggregates were computed from. -/
structure RawPass where
  startT : Nat
  endT : Nat
  maxElevation : ℚ
  avgElevation : ℚ
  avgDistance : Option ℚ
  minDistance : Option ℚ
  elevs : List ℚ
  dists : List ℚ
deriving DecidableEq, Repr

/-- Math.max over the spread of a list (meaningful on non-empty lists; the
code only applies it to a non-empty accumulator). -/
def listMax : List ℚ → ℚ
  | [] => 0
  | e :: es => es.foldl max e

/-- Math.min over the spread of a list. -/
def listMin : List ℚ → ℚ
  | [] => 0
  | e :: es => es.foldl min e

/-- The mean, computed as l.reduce ((sum, el) => sum + el, 0) / l.length. -/
def listAvg (l : List ℚ) : ℚ :=
  l.foldl (· + ·) 0 / l.length

/-- The mutable loop state of findSatellitePasses: the minute index t, the
open-interval marker passStart, the two accumulators, and the passes
pushed so far. -/
structure DetState where
  t : Nat
  passStart : Option Nat
  elevations : List ℚ
  distances : List ℚ
  passes : List RawPass
deriving DecidableEq, Repr

/-- The initial loop state of findSatellitePasses. -/
def detInit : DetState :=
  { t := 0, passStart := none, elevations := [], distances := [], passes := [] }

/-- One iteration of the while loop of findSatellitePasses (tle.js lines
62-113). When propagate returned no position nothing happens; when the
distance is within maxDistance the interval is opened (resetting the
accumulators) or extended; otherwise, if an interval is open, it is closed
and a pass with all four aggregates is pushed. -/
def detStep (maxDistance : ℚ) (st : DetState) (s : Sample) : DetState :=
  if s.hasPos then
    if s.distance ≤ maxDistance then
      match st.passStart with
      | none =>
        { st with passStart := some st.t,
                  elevations := [s.elevation],
                  distances := [s.distance],
                  t := st.t + 1 }
      | some _ =>
        { st with elevations := st.elevations ++ [s.elevation],
                  distances := st.distances ++ [s.distance],
                  t := st.t + 1 }
    else
      match st.passStart with
      | some ps =>
        { st with
          passes := st.passes ++
            [{ startT := ps, endT := st.t,
               maxElevation := listMax st.elevations,
               avgElevation := listAvg st.elevations,
               avgDistance := some (listAvg st.distances),
               minDistance := some (listMin st.distances),
               elevs := st.elevations, dists := st.distances }],
          passStart := none, t := st.t + 1 }
      | none => { st with t := st.t + 1 }
  else { st with t := st.t + 1 }

/-- findSatellitePasses (tle.js lines 51-127) on a given sample sequence:
fold the loop body over the samples, then, if an interval is still open at
the window end, push a final pass that carries only the elevation
aggregates (the distance accumulator is not aggregated for it). -/
def findSatellitePasses (maxDistance : ℚ) (samples : List Sample) :
    List RawPass :=
  let st := samples.foldl (detStep maxDistance) detInit
  match st.passStart with
  | some ps =>
    st.passes ++
      [{ startT := ps, endT := st.t,
         maxElevation := listMax st.elevations,
         avgElevation := listAvg st.elevations,
         avgDistance := none, minDistance := none,
         elevs := st.elevations, dists := st.distances }]
  | none => st.passes

/-- A sample is in view iff propagate produced a position and the distance
is within maxDistance (the branch that feeds the accumulators). -/
def inView (maxDistance : ℚ) (s : Sample) : Bool :=
  s.hasPos && decide (s.distance ≤ maxDistance)

/-- Number of maximal contiguous runs of true, given the in-view status of
the previous sample. -/
def countRunsAux : Bool → List Bool → Nat
  | _, [] => 0
  | prev, b :: rest => (if b && !prev then 1 else 0) + countRunsAux b rest

/-- Number of maximal contiguous runs of true in a boolean sequence. -/
def countRuns (l : List Bool) : Nat :=
  countRunsAux false l

/-- The observable effect of handleRecording (scheduler.js lines 158-180)
on the recorder and the store: whether startRecording was invoked, the
updated pass record, and the file write performed. -/
structure RecEffect where
  started : Bool
  item : Pass
  ops : List FsOp
deriving DecidableEq, Repr

/-- handleRecording (scheduler.js lines 158-180). Its inputs are the pass
and the recorder state at fire time (recordingInProgress = the value
isRecording() would return). The body calls startRecording, sets
item.recorded = true and rewrites the passes file in place,
unconditionally: recordingInProgress is never consulted. -/
def handleRecording (recordingInProgress : Bool) (file : String)
    (item : Pass) : RecEffect :=
  { started := true,
    item := { item with recorded := true },
    ops := [FsOp.write file] }

/-- The qualifying filter of the selectTop contract: the pass is on the
given day, not yet recorded, and its start time does not precede now. -/
def qualifies (parseDT : String → String → Int) (day : String) (now : Int)
    (p : Pass) : Bool :=
  p.date == day && !p.recorded && decide (now ≤ parseDT p.date p.time)

/-- Descending comparator on maxElevation. -/
def elevGe (a b : Pass) : Bool :=
  b.maxElevation ≤ a.maxElevation

/-- Modelled from the spec: findTopMaxElevationPasses lives in passes.js,
which is not under src/ (scheduler.js only imports and calls it). Per
spec section 4.3, selectTop filters to passes whose startTime falls within
the given day, excludes recorded passes and passes whose startTime
precedes now, sorts by maxElevation descending and returns the first n.
day is compared against the date field; startTime is compared via the
abstract parser parseDT against now. -/
def findTopMaxElevationPasses (parseDT : String → String → Int)
    (day : String) (now : Int) (passes : List Pass) (n : Nat) : List Pass :=
  (sortLe elevGe (passes.filter (qualifies parseDT day now))).take n

/-- What holds of every pass pushed by the mid-window close of the
findSatellitePasses loop: the aggregates are exactly the functions of the
accumulator contents that the code computes, and the accumulators were
non-empty. -/
def midOk (p : RawPass) : Prop :=
  p.elevs ≠ [] ∧ p.dists ≠ [] ∧
  p.maxElevation = listMax p.elevs ∧
  p.avgElevation = listAvg p.elevs ∧
  p.minDistance = some (listMin p.dists) ∧
  p.avgDistance = some (listAvg p.dists)

/-- Loop invariant of findSatellitePasses: every pushed pass satisfies
midOk, and while an interval is open both accumulators are non-empty. -/
def stInv (st : DetState) : Prop :=
  (∀ p ∈ st.passes, midOk p) ∧
  (st.passStart.isSome = true → st.elevations ≠ [] ∧ st.distances ≠ [])

/-- Concrete fixtures for the closed instances below. -/
def passA : Pass :=
  { frequency := "137.1M", satellite := "NOAA 19", date := "01 Jan 2026",
    time := "12:00", duration := 19, avgElevation := 30, maxElevation := 42,
    avgDistance := 1500, minDistance := 1200, recorded := false }

def passB : Pass :=
  { frequency := "137.9125M", satellite := "NOAA 18", date := "01 Jan 2026",
    time := "13:30", duration := 17, avgElevation := 20, maxElevation := 35,
    avgDistance := 1700, minDistance := 1400, recorded := false }

def passC : Pass :=
  { frequency := "137.62M", satellite := "NOAA 15", date := "02 Jan 2026",
    time := "09:15", duration := 15, avgElevation := 10, maxElevation := 25,
    avgDistance := 2100, minDistance := 1900, recorded := true }

def sampleIn : Sample := { hasPos := true, elevation := 42, distance := 50 }

def sampleNoPos : Sample := { hasPos := false, elevation := 0, distance := 0 }

def sampleFar : Sample := { hasPos := true, elevation := -5, distance := 900 }

/-- The pass the detector emits at the window end for the one-sample run
[sampleIn] (used in closed instances below). -/
def tailPassFix : RawPass :=
  { startT := 0, endT := 1, maxElevation := listMax [42],
    avgElevation := listAvg [42], avgDistance := none, minDistance := none,
    elevs := [42], dists := [50] }

/-- The pass the detector emits mid-window for the run
[sampleIn, sampleFar]. -/
def midPassFix : RawPass :=
  { startT := 0, endT := 1, maxElevation := listMax [42],
    avgElevation := listAvg [42], avgDistance := some (listAvg [50]),
    minDistance := some (listMin [50]), elevs := [42], dists := [50] }

/-! ### Lemmas about the deduplicating merge of processPasses -/

lemma sameKey_self (p : Pass) : sameKey p p = true := by
  simp [sameKey]

lemma hasKey_of_mem {p : Pass} {l : List Pass} (h : p ∈ l) :
    hasKey l p = true := by
  simp only [hasKey, List.any_eq_true]
  exact ⟨p, h, sameKey_self p⟩

lemma hasKey_append (l₁ l₂ : List Pass) (p : Pass) :
    hasKey (l₁ ++ l₂) p = (hasKey l₁ p || hasKey l₂ p) := by
  simp [hasKey, List.any_append]

lemma mergeStep_of_hasKey {S : List Pass} {p : Pass}
    (h : hasKey S p = true) : mergeStep S p = S := by
  simp [mergeStep, h]

lemma mergeStep_of_not_hasKey {S : List Pass} {p : Pass}
    (h : hasKey S p = false) : mergeStep S p = S ++ [p] := by
  simp [mergeStep, h]

lemma mergePasses_nil (S : List Pass) : mergePasses S [] = S := rfl

lemma mergePasses_cons (S : List Pass) (x : Pass) (X : List Pass) :
    mergePasses S (x :: X) = mergePasses (mergeStep S x) X := rfl

lemma mergePasses_fixed {T L : List Pass}
    (h : ∀ p ∈ L, hasKey T p = true) : mergePasses T L = T := by
  induction L with
  | nil => rfl
  | cons x X ih =>
    rw [mergePasses_cons, mergeStep_of_hasKey (h x (List.mem_cons_self x X))]
    exact ih (fun p hp => h p (List.mem_cons_of_mem x hp))

/-- Decomposition of the merge loop: the result is the existing list
followed by a block A of accepted incoming passes, each of which occurs in
the incoming batch and has an identity key absent from the existing list;
moreover re-merging A alone reproduces the same result. -/
lemma merge_decomp (X S : List Pass) : ∃ A : List Pass,
    mergePasses S X = S ++ A ∧
    (∀ a ∈ A, a ∈ X ∧ hasKey S a = false) ∧
    mergePasses S A = S ++ A := by
  induction X generalizing S with
  | nil =>
    exact ⟨[], by simp [mergePasses_nil], by simp, by simp [mergePasses_nil]⟩
  | cons x X ih =>
    cases hx : hasKey S x with
    | true =>
      obtain ⟨A, h1, h2, h3⟩ := ih S
      refine ⟨A, ?_, ?_, h3⟩
      · rw [mergePasses_cons, mergeStep_of_hasKey hx, h1]
      · exact fun a ha => ⟨List.mem_cons_of_mem x (h2 a ha).1, (h2 a ha).2⟩
    | false =>
      obtain ⟨A, h1, h2, h3⟩ := ih (S ++ [x])
      refine ⟨x :: A, ?_, ?_, ?_⟩
      · rw [mergePasses_cons, mergeStep_of_not_hasKey hx, h1]
        simp
      · intro a ha
        rcases List.mem_cons.mp ha with rfl | ha'
        · exact ⟨List.mem_cons_self a X, hx⟩
        · obtain ⟨haX, hk⟩ := h2 a ha'
          refine ⟨List.mem_cons_of_mem x haX, ?_⟩
          rw [hasKey_append] at hk
          exact (Bool.or_eq_false_iff.mp hk).1
      · rw [mergePasses_cons, mergeStep_of_not_hasKey hx, h3]
        simp

/-- C5: the merge loop leaves the existing entries in place as an
unmodified prefix, a pass whose identity key is already stored is
discarded (so the store is unchanged, in particular its size), and every
element of the result is either an existing entry or an incoming pass
whose identity key was absent from the existing store. -/
theorem merge_appends_only_fresh_keys (S X : List Pass) :
    (mergePasses S X).take S.length = S ∧
    (∀ p, hasKey S p = true → mergePasses S (p :: X) = mergePasses S X) ∧
    (∀ q ∈ mergePasses S X, q ∈ S ∨ (q ∈ X ∧ hasKey S q = false)) := by
  obtain ⟨A, h1, h2, _⟩ := merge_decomp X S
  refine ⟨?_, ?_, ?_⟩
  · rw [h1, List.take_left]
  · intro p hp
    rw [mergePasses_cons, mergeStep_of_hasKey hp]
  · intro q hq
    rw [h1] at hq
    rcases List.mem_append.mp hq with h | h
    · exact Or.inl h
    · exact Or.inr (h2 q h)

/-- Closed instance of the C5 theorem at concrete passes: a duplicate of
the stored passA is discarded and the fresh passB is appended. -/
theorem merge_appends_only_fresh_keys_witness :
    (mergePasses [passA] [passA, passB]).take 1 = [passA] ∧
    mergePasses [passA] (passA :: [passA, passB]) =
      mergePasses [passA] [passA, passB] ∧
    (passB ∈ [passA] ∨ (passB ∈ [passA, passB] ∧ hasKey [passA] passB = false)) := by
  obtain ⟨h1, h2, h3⟩ := merge_appends_only_fresh_keys [passA] [passA, passB]
  exact ⟨h1, h2 passA (by decide), h3 passB (by decide)⟩

/-- C6: the merge loop is idempotent — re-merging the merged result into
the same store changes nothing, so re-running detection on the same data
yields no duplicates. -/
theorem merge_idempotent (S X : List Pass) :
    mergePasses S (mergePasses S X) = mergePasses S X := by
  obtain ⟨A, h1, _, h3⟩ := merge_decomp X S
  rw [h1]
  show List.foldl mergeStep S (S ++ A) = S ++ A
  rw [List.foldl_append]
  have hS : List.foldl mergeStep S S = S :=
    mergePasses_fixed (fun p hp => hasKey_of_mem hp)
  rw [hS]
  exact h3

lemma hasKey_eq_false_forall {S : List Pass} {x : Pass}
    (h : hasKey S x = false) : ∀ q ∈ S, sameKey q x = false := by
  simp only [hasKey, List.any_eq_false, Bool.not_eq_true] at h
  exact h

lemma noDupKey_mergeStep {S : List Pass} {x : Pass} (h : NoDupKey S) :
    NoDupKey (mergeStep S x) := by
  cases hx : hasKey S x with
  | true => rw [mergeStep_of_hasKey hx]; exact h
  | false =>
    rw [mergeStep_of_not_hasKey hx]
    rw [NoDupKey, List.pairwise_append]
    refine ⟨h, List.pairwise_singleton _ _, ?_⟩
    intro a ha b hb
    rw [List.mem_singleton] at hb
    subst hb
    exact hasKey_eq_false_forall hx a ha

/-- C9: merging any incoming batch — duplicates inside the batch included —
into a store with pairwise distinct identity keys yields a store with
pairwise distinct identity keys, because each candidate is checked against
the growing merged list. -/
theorem merge_preserves_noDupKey (S X : List Pass) (h : NoDupKey S) :
    NoDupKey (mergePasses S X) := by
  induction X generalizing S with
  | nil => exact h
  | cons x X ih =>
    rw [mergePasses_cons]
    exact ih _ (noDupKey_mergeStep h)

/-- Closed instance of the C9 theorem: merging a batch that contains the
same pass twice into a singleton store keeps all identity keys distinct. -/
theorem merge_preserves_noDupKey_witness :
    NoDupKey (mergePasses [passA] [passB, passB]) :=
  merge_preserves_noDupKey [passA] [passB, passB] (by simp [NoDupKey])

/-! ### Lemmas about the stable insertion sort -/

lemma perm_insertLe (le : Pass → Pass → Bool) (p : Pass) (l : List Pass) :
    List.Perm (insertLe le p l) (p :: l) := by
  induction l with
  | nil => simp [insertLe]
  | cons q qs ih =>
    simp only [insertLe]
    by_cases h : le p q = true
    · rw [if_pos h]
    · rw [if_neg h]
      exact (ih.cons q).trans (List.Perm.swap p q qs)

lemma mem_insertLe {le : Pass → Pass → Bool} {p x : Pass} {l : List Pass} :
    x ∈ insertLe le p l ↔ x = p ∨ x ∈ l := by
  rw [(perm_insertLe le p l).mem_iff, List.mem_cons]

lemma perm_sortLe (le : Pass → Pass → Bool) (l : List Pass) :
    List.Perm (sortLe le l) l := by
  induction l with
  | nil => simp [sortLe]
  | cons p ps ih =>
    exact (perm_insertLe le p (sortLe le ps)).trans (ih.cons p)

lemma pairwise_insertLe {le : Pass → Pass → Bool}
    (htot : ∀ a b, le a b = true ∨ le b a = true)
    (htrans : ∀ a b c, le a b = true → le b c = true → le a c = true)
    (p : Pass) {l : List Pass}
    (h : List.Pairwise (fun a b => le a b = true) l) :
    List.Pairwise (fun a b => le a b = true) (insertLe le p l) := by
  induction l with
  | nil => simp [insertLe]
  | cons q qs ih =>
    rcases List.pairwise_cons.mp h with ⟨hq, hqs⟩
    simp only [insertLe]
    by_cases hle : le p q = true
    · rw [if_pos hle]
      refine List.pairwise_cons.mpr ⟨?_, h⟩
      intro b hb
      rcases List.mem_cons.mp hb with hbq | hb'
      · rw [hbq]
        exact hle
      · exact htrans p q b hle (hq b hb')
    · rw [if_neg hle]
      refine List.pairwise_cons.mpr ⟨?_, ih hqs⟩
      intro b hb
      rcases mem_insertLe.mp hb with hbp | hb'
      · rw [hbp]
        exact (htot p q).resolve_left hle
      · exact hq b hb'

lemma pairwise_sortLe {le : Pass → Pass → Bool}
    (htot : ∀ a b, le a b = true ∨ le b a = true)
    (htrans : ∀ a b c, le a b = true → le b c = true → le a c = true)
    (l : List Pass) :
    List.Pairwise (fun a b => le a b = true) (sortLe le l) := by
  induction l with
  | nil => simp [sortLe]
  | cons p ps ih => exact pairwise_insertLe htot htrans p ih

/-! ### C2: the persistence behaviour of savePasses and processData -/

/-- C2 counterexample: savePasses persists with one direct
fs.writeFileSync of the canonical path — its file-system effect list is a
single write of that path, with no temporary-file write and no rename. -/
theorem savePasses_inplace_write_cex :
    (savePasses (fun _ _ => 0) "passes.json" [passB, passA]).2 =
      [FsOp.write "passes.json"] := rfl

/-- C2 (amended): savePasses sorts ascending by the parsed date and time
and then overwrites the canonical path in place with a single write; the
backup + temp-file + atomic-rename pattern belongs to the cron scheduler
processData, whose effect trace copies the canonical file to a backup,
writes a temporary path and renames it onto the canonical path, never
writing the canonical path directly. -/
theorem savePasses_sorts_inplace_processData_atomic
    (parseDT : String → String → Int) (file : String) (passes : List Pass) :
    List.Perm (savePasses parseDT file passes).1 passes ∧
    List.Pairwise (fun a b => saveLe parseDT a b = true)
      (savePasses parseDT file passes).1 ∧
    (savePasses parseDT file passes).2 = [FsOp.write file] ∧
    processDataSaveOps file =
      [FsOp.copy file (file ++ ".bak"), FsOp.write (file ++ ".tmp"),
       FsOp.rename (file ++ ".tmp") file] ∧
    FsOp.write file ∉ processDataSaveOps file := by
  refine ⟨perm_sortLe _ _, pairwise_sortLe ?_ ?_ _, rfl, rfl, ?_⟩
  · intro a b
    simp only [saveLe, decide_eq_true_eq]
    exact Int.le_total _ _
  · intro a b c hab hbc
    simp only [saveLe, decide_eq_true_eq] at hab hbc ⊢
    exact le_trans hab hbc
  · intro hmem
    simp only [processDataSaveOps, List.mem_cons, List.not_mem_nil,
      or_false] at hmem
    rcases hmem with h | h | h
    · exact FsOp.noConfusion h
    · have hf : file = file ++ ".tmp" := by injection h
      have h2 : file.length = (file ++ ".tmp").length :=
        congrArg String.length hf
      rw [String.length_append] at h2
      have h3 : ".tmp".length = 4 := rfl
      omega
    · exact FsOp.noConfusion h

/-- Closed instance of the C2 amended theorem at a concrete comparator,
path and pass list. -/
theorem savePasses_sorts_inplace_processData_atomic_witness :
    List.Perm (savePasses (fun _ _ => 0) "p.json" [passB, passA]).1
      [passB, passA] ∧
    List.Pairwise (fun a b => saveLe (fun _ _ => 0) a b = true)
      (savePasses (fun _ _ => 0) "p.json" [passB, passA]).1 ∧
    (savePasses (fun _ _ => 0) "p.json" [passB, passA]).2 =
      [FsOp.write "p.json"] ∧
    processDataSaveOps "p.json" =
      [FsOp.copy "p.json" ("p.json" ++ ".bak"),
       FsOp.write ("p.json" ++ ".tmp"),
       FsOp.rename ("p.json" ++ ".tmp") "p.json"] ∧
    FsOp.write "p.json" ∉ processDataSaveOps "p.json" :=
  savePasses_sorts_inplace_processData_atomic (fun _ _ => 0) "p.json"
    [passB, passA]

/-! ### C7: the selection of the top passes of the day -/

/-- C7 (spec-modelled): for n ≥ 1, the selection returns only passes of
the given day that are unrecorded and do not start in the past, returns
at most n entries, returns them sorted by maxElevation descending, and
when at most n passes qualify it returns all of them. -/
theorem findTop_selects_day_unrecorded_future
    (parseDT : String → String → Int) (day : String) (now : Int)
    (passes : List Pass) (n : Nat) (hn : 1 ≤ n) :
    (∀ p ∈ findTopMaxElevationPasses parseDT day now passes n,
        p.date = day ∧ p.recorded = false ∧ now ≤ parseDT p.date p.time) ∧
    (findTopMaxElevationPasses parseDT day now passes n).length ≤ n ∧
    List.Pairwise (fun a b => b.maxElevation ≤ a.maxElevation)
      (findTopMaxElevationPasses parseDT day now passes n) ∧
    ((passes.filter (qualifies parseDT day now)).length ≤ n →
      List.Perm (findTopMaxElevationPasses parseDT day now passes n)
        (passes.filter (qualifies parseDT day now))) := by
  have htot : ∀ a b : Pass, elevGe a b = true ∨ elevGe b a = true := by
    intro a b
    simp only [elevGe, decide_eq_true_eq]
    exact le_total _ _
  have htrans : ∀ a b c : Pass,
      elevGe a b = true → elevGe b c = true → elevGe a c = true := by
    intro a b c hab hbc
    simp only [elevGe, decide_eq_true_eq] at hab hbc ⊢
    exact le_trans hbc hab
  refine ⟨?_, ?_, ?_, ?_⟩
  · intro p hp
    have hp1 : p ∈ sortLe elevGe (passes.filter (qualifies parseDT day now)) :=
      (List.take_sublist n _).subset hp
    have hp2 : p ∈ passes.filter (qualifies parseDT day now) :=
      (perm_sortLe elevGe _).subset hp1
    have hq : qualifies parseDT day now p = true := (List.mem_filter.mp hp2).2
    simp only [qualifies, Bool.and_eq_true, beq_iff_eq, Bool.not_eq_true',
      decide_eq_true_eq] at hq
    exact ⟨hq.1.1, hq.1.2, hq.2⟩
  · rw [findTopMaxElevationPasses, List.length_take]
    exact Nat.min_le_left _ _
  · have hs := pairwise_sortLe htot htrans
      (passes.filter (qualifies parseDT day now))
    have ht := hs.sublist (List.take_sublist n _)
    exact ht.imp (fun hab => by
      simpa only [elevGe, decide_eq_true_eq] using hab)
  · intro hlen
    rw [findTopMaxElevationPasses, List.take_of_length_le]
    · exact perm_sortLe elevGe _
    · rw [(perm_sortLe elevGe _).length_eq]
      exact hlen

/-- Closed instance of the C7 theorem: with two qualifying passes of the
day and n = 2, the selection returns exactly the qualifying passes,
sorted descending, and passA (the best of the day) is selected with its
date,
recorded and start-time facts. -/
theorem findTop_selects_day_unrecorded_future_witness :
    (passA.date = "01 Jan 2026" ∧ passA.recorded = false ∧
      (0 : Int) ≤ 0) ∧
    (findTopMaxElevationPasses (fun _ _ => 0) "01 Jan 2026" 0
      [passA, passB, passC] 2).length ≤ 2 ∧
    List.Pairwise (fun a b => b.maxElevation ≤ a.maxElevation)
      (findTopMaxElevationPasses (fun _ _ => 0) "01 Jan 2026" 0
        [passA, passB, passC] 2) ∧
    List.Perm (findTopMaxElevationPasses (fun _ _ => 0) "01 Jan 2026" 0
      [passA, passB, passC] 2)
      (([passA, passB, passC] : List Pass).filter
        (qualifies (fun _ _ => 0) "01 Jan 2026" 0)) := by
  obtain ⟨h1, h2, h3, h4⟩ := findTop_selects_day_unrecorded_future
    (fun _ _ => 0) "01 Jan 2026" 0 [passA, passB, passC] 2 (by decide)
  exact ⟨h1 passA (by decide), h2, h3, h4 (by decide)⟩

/-! ### C8: recovery behaviour of readExistingPasses -/

/-- C8: when the passes file does not exist or holds only whitespace the
load returns the empty list without reporting, and when the content fails
to parse it returns the empty list and reports the failure instead of
propagating the error (the function is total and never rethrows). -/
theorem readExistingPasses_recovers
    (parse : String → Option (List Pass)) (s : String) :
    readExistingPasses none parse = ([], false) ∧
    (isBlank s = true → readExistingPasses (some s) parse = ([], false)) ∧
    (isBlank s = false → parse s = none →
      readExistingPasses (some s) parse = ([], true)) := by
  refine ⟨rfl, ?_, ?_⟩
  · intro h
    simp [readExistingPasses, h]
  · intro h hp
    simp [readExistingPasses, h, hp]

/-- Closed instance of the C8 theorem: a missing file, a whitespace-only
file, and a file whose content JSON.parse rejects. -/
theorem readExistingPasses_recovers_witness :
    readExistingPasses none (fun _ => none) = ([], false) ∧
    readExistingPasses (some "") (fun _ => none) = ([], false) ∧
    readExistingPasses (some "bad json") (fun _ => none) = ([], true) :=
  ⟨(readExistingPasses_recovers (fun _ => none) "").1,
   (readExistingPasses_recovers (fun _ => none) "").2.1 (by decide),
   (readExistingPasses_recovers (fun _ => none) "bad json").2.2 (by decide) rfl⟩

/-! ### C1: handleRecording and the activation-in-progress flag -/

/-- C1: evaluating handleRecording at the failing input — a timer fires
for passB while a recording is already in progress (isRecording() would
return true). The function still starts the recording, still sets
recorded to true, and still rewrites the passes file: the in-progress
flag is never consulted before firing. -/
theorem handleRecording_ignores_busy_recorder :
    (handleRecording true "passes.json" passB).started = true ∧
    (handleRecording true "passes.json" passB).item.recorded = true ∧
    (handleRecording true "passes.json" passB).ops =
      [FsOp.write "passes.json"] :=
  ⟨rfl, rfl, rfl⟩

/-! ### Lemmas about the pass-detector aggregates and loop invariant -/

lemma le_foldl_max : ∀ (l : List ℚ) (a : ℚ), a ≤ l.foldl max a := by
  intro l
  induction l with
  | nil => intro a; exact le_refl a
  | cons x xs ih =>
    intro a
    exact le_trans (le_max_left a x) (ih (max a x))

lemma mem_le_foldl_max :
    ∀ (l : List ℚ) (a x : ℚ), x ∈ l → x ≤ l.foldl max a := by
  intro l
  induction l with
  | nil => intro a x h; cases h
  | cons y ys ih =>
    intro a x h
    rcases List.mem_cons.mp h with hxy | h'
    · rw [hxy]
      exact le_trans (le_max_right a y) (le_foldl_max ys (max a y))
    · exact ih (max a y) x h'

lemma foldl_max_mem :
    ∀ (l : List ℚ) (a : ℚ), l.foldl max a = a ∨ l.foldl max a ∈ l := by
  intro l
  induction l with
  | nil => intro a; exact Or.inl rfl
  | cons y ys ih =>
    intro a
    rw [List.foldl_cons]
    rcases ih (max a y) with h | h
    · rw [h]
      rcases max_choice a y with hm | hm
      · exact Or.inl hm
      · rw [hm]
        exact Or.inr (List.mem_cons_self y ys)
    · exact Or.inr (List.mem_cons_of_mem y h)

lemma le_listMax {x : ℚ} {l : List ℚ} (h : x ∈ l) : x ≤ listMax l := by
  cases l with
  | nil => cases h
  | cons e es =>
    show x ≤ es.foldl max e
    rcases List.mem_cons.mp h with hxe | h'
    · rw [hxe]
      exact le_foldl_max es e
    · exact mem_le_foldl_max es e x h'

lemma listMax_mem {l : List ℚ} (h : l ≠ []) : listMax l ∈ l := by
  cases l with
  | nil => exact absurd rfl h
  | cons e es =>
    show es.foldl max e ∈ e :: es
    rcases foldl_max_mem es e with h' | h'
    · rw [h']
      exact List.mem_cons_self e es
    · exact List.mem_cons_of_mem e h'

lemma foldl_min_le : ∀ (l : List ℚ) (a : ℚ), l.foldl min a ≤ a := by
  intro l
  induction l with
  | nil => intro a; exact le_refl a
  | cons x xs ih =>
    intro a
    exact le_trans (ih (min a x)) (min_le_left a x)

lemma foldl_min_le_mem :
    ∀ (l : List ℚ) (a x : ℚ), x ∈ l → l.foldl min a ≤ x := by
  intro l
  induction l with
  | nil => intro a x h; cases h
  | cons y ys ih =>
    intro a x h
    rcases List.mem_cons.mp h with hxy | h'
    · rw [hxy]
      exact le_trans (foldl_min_le ys (min a y)) (min_le_right a y)
    · exact ih (min a y) x h'

lemma foldl_min_mem :
    ∀ (l : List ℚ) (a : ℚ), l.foldl min a = a ∨ l.foldl min a ∈ l := by
  intro l
  induction l with
  | nil => intro a; exact Or.inl rfl
  | cons y ys ih =>
    intro a
    rw [List.foldl_cons]
    rcases ih (min a y) with h | h
    · rw [h]
      rcases min_choice a y with hm | hm
      · exact Or.inl hm
      · rw [hm]
        exact Or.inr (List.mem_cons_self y ys)
    · exact Or.inr (List.mem_cons_of_mem y h)

lemma listMin_le {x : ℚ} {l : List ℚ} (h : x ∈ l) : listMin l ≤ x := by
  cases l with
  | nil => cases h
  | cons e es =>
    show es.foldl min e ≤ x
    rcases List.mem_cons.mp h with hxe | h'
    · rw [hxe]
      exact foldl_min_le es e
    · exact foldl_min_le_mem es e x h'

lemma listMin_mem {l : List ℚ} (h : l ≠ []) : listMin l ∈ l := by
  cases l with
  | nil => exact absurd rfl h
  | cons e es =>
    show es.foldl min e ∈ e :: es
    rcases foldl_min_mem es e with h' | h'
    · rw [h']
      exact List.mem_cons_self e es
    · exact List.mem_cons_of_mem e h'

lemma stInv_detInit : stInv detInit := by
  constructor
  · intro p hp
    cases hp
  · intro h
    simp [detInit] at h

lemma stInv_detStep {md : ℚ} {st : DetState} (s : Sample) (h : stInv st) :
    stInv (detStep md st s) := by
  obtain ⟨hp, ho⟩ := h
  rw [detStep]
  by_cases h1 : s.hasPos = true
  · rw [if_pos h1]
    by_cases h2 : s.distance ≤ md
    · rw [if_pos h2]
      cases hps : st.passStart with
      | none =>
        refine ⟨hp, fun _ => ⟨?_, ?_⟩⟩ <;> simp
      | some ps =>
        refine ⟨hp, fun _ => ⟨?_, ?_⟩⟩ <;> simp
    · rw [if_neg h2]
      cases hps : st.passStart with
      | none => exact ⟨hp, fun hx => by simp at hx⟩
      | some ps =>
        refine ⟨?_, ?_⟩
        · intro p hp'
          rcases List.mem_append.mp hp' with h' | h'
          · exact hp p h'
          · rw [List.mem_singleton] at h'
            subst h'
            have hne := ho (by rw [hps]; rfl)
            exact ⟨hne.1, hne.2, rfl, rfl, rfl, rfl⟩
        · intro hsome
          simp at hsome
  · rw [if_neg h1]
    exact ⟨hp, ho⟩

lemma stInv_foldl (md : ℚ) (l : List Sample) {st : DetState}
    (h : stInv st) : stInv (l.foldl (detStep md) st) := by
  induction l generalizing st with
  | nil => exact h
  | cons s ss ih => exact ih (stInv_detStep s h)

/-- How one loop iteration changes the pass count: while every sample has
a position, the number of pushed passes plus the open-interval bit grows
exactly by the number of starts of in-view runs. -/
lemma detStep_run_count (md : ℚ) :
    ∀ (l : List Sample) (st : DetState), (∀ s ∈ l, s.hasPos = true) →
      (l.foldl (detStep md) st).passes.length
        + (l.foldl (detStep md) st).passStart.isSome.toNat
      = st.passes.length + st.passStart.isSome.toNat
        + countRunsAux st.passStart.isSome (l.map (inView md)) := by
  intro l
  induction l with
  | nil =>
    intro st h
    simp [countRunsAux]
  | cons s ss ih =>
    intro st h
    have hs : s.hasPos = true := h s (List.mem_cons_self s ss)
    have hss : ∀ x ∈ ss, x.hasPos = true :=
      fun x hx => h x (List.mem_cons_of_mem s hx)
    rw [List.foldl_cons, List.map_cons]
    simp only [countRunsAux]
    rw [ih (detStep md st s) hss]
    by_cases h2 : s.distance ≤ md
    · have hiv : inView md s = true := by simp [inView, hs, h2]
      cases hps : st.passStart with
      | none =>
        have hstep : detStep md st s =
            { st with passStart := some st.t,
                      elevations := [s.elevation],
                      distances := [s.distance],
                      t := st.t + 1 } := by
          rw [detStep, if_pos hs, if_pos h2, hps]
        rw [hstep, hiv]
        simp [hps]
        omega
      | some ps =>
        have hstep : detStep md st s =
            { st with elevations := st.elevations ++ [s.elevation],
                      distances := st.distances ++ [s.distance],
                      t := st.t + 1 } := by
          rw [detStep, if_pos hs, if_pos h2, hps]
        rw [hstep, hiv]
        simp [hps]
    · have hiv : inView md s = false := by simp [inView, h2]
      cases hps : st.passStart with
      | none =>
        have hstep : detStep md st s = { st with t := st.t + 1 } := by
          rw [detStep, if_pos hs, if_neg h2, hps]
        rw [hstep, hiv]
        simp [hps]
      | some ps =>
        have hstep : detStep md st s =
            { st with
              passes := st.passes ++
                [{ startT := ps, endT := st.t,
                   maxElevation := listMax st.elevations,
                   avgElevation := listAvg st.elevations,
                   avgDistance := some (listAvg st.distances),
                   minDistance := some (listMin st.distances),
                   elevs := st.elevations, dists := st.distances }],
              passStart := none, t := st.t + 1 } := by
          rw [detStep, if_pos hs, if_neg h2, hps]
        rw [hstep, hiv]
        simp [hps]

lemma length_findSatellitePasses (md : ℚ) (samples : List Sample) :
    (findSatellitePasses md samples).length =
      (samples.foldl (detStep md) detInit).passes.length
        + (samples.foldl (detStep md) detInit).passStart.isSome.toNat := by
  simp only [findSatellitePasses]
  cases hps : (samples.foldl (detStep md) detInit).passStart with
  | none => simp
  | some ps => simp

/-- C3 (amended): whenever every grid sample has a propagated position,
the number of emitted passes — the pass still open at the window end
included — equals the number of maximal contiguous runs of in-view
samples. The position hypothesis is necessary: see the counterexample. -/
theorem detector_pass_count (md : ℚ) (samples : List Sample)
    (h : ∀ s ∈ samples, s.hasPos = true) :
    (findSatellitePasses md samples).length =
      countRuns (samples.map (inView md)) := by
  have key := detStep_run_count md samples detInit h
  have h0 : detInit.passes.length = 0 := rfl
  have h1 : detInit.passStart.isSome = false := rfl
  rw [h0, h1, Bool.toNat_false] at key
  rw [countRuns, length_findSatellitePasses]
  omega

/-- C3 counterexample: on the sample run in-view, no-position, in-view the
code emits a single pass (the positionless sample neither closes nor
extends the open interval), while the sequence has two maximal contiguous
in-view runs. -/
theorem detector_pass_count_gap_cex :
    (findSatellitePasses 100 [sampleIn, sampleNoPos, sampleIn]).length = 1 ∧
    countRuns ([sampleIn, sampleNoPos, sampleIn].map (inView 100)) = 2 := by
  decide

/-- Closed instance of the C3 amended theorem: all three samples have a
position, the middle one is out of range, and the pass count matches the
two in-view runs. -/
theorem detector_pass_count_witness :
    (∀ s ∈ [sampleIn, sampleFar, sampleIn], s.hasPos = true) ∧
    (findSatellitePasses 100 [sampleIn, sampleFar, sampleIn]).length =
      countRuns ([sampleIn, sampleFar, sampleIn].map (inView 100)) :=
  ⟨by decide, detector_pass_count 100 [sampleIn, sampleFar, sampleIn] (by decide)⟩

/-- C4 counterexample: the pass closed at the window end carries no
minDistance and no avgDistance key at all — the run [sampleIn] emits
exactly one pass and both of its distance aggregates are absent. -/
theorem detector_tail_pass_lacks_distance_cex :
    (findSatellitePasses 100 [sampleIn]).map
      (fun p => (p.minDistance, p.avgDistance)) = [(none, none)] := by
  decide

/-- C4 (amended): every emitted pass carries the elevation aggregates of
its accumulated samples — maxElevation is a sample elevation at least as
large as every accumulated elevation, and avgElevation is their mean —
and every pass closed mid-window additionally carries minDistance, a
sample distance at most every accumulated distance, and avgDistance,
their mean; the pass closed at the window end carries no distance
aggregates (see the counterexample). -/
theorem detector_aggregates_bound_samples (md : ℚ) (samples : List Sample) :
    (∀ p ∈ findSatellitePasses md samples,
       (∀ e ∈ p.elevs, e ≤ p.maxElevation) ∧
       p.maxElevation ∈ p.elevs ∧
       p.avgElevation = listAvg p.elevs) ∧
    (∀ p ∈ (samples.foldl (detStep md) detInit).passes,
       (∀ d ∈ p.dists, p.minDistance = some (listMin p.dists) ∧
          listMin p.dists ≤ d) ∧
       p.minDistance = some (listMin p.dists) ∧
       p.avgDistance = some (listAvg p.dists)) := by
  have hinv := stInv_foldl md samples stInv_detInit
  obtain ⟨hmid, hopen⟩ := hinv
  constructor
  · intro p hp
    simp only [findSatellitePasses] at hp
    cases hps : (samples.foldl (detStep md) detInit).passStart with
    | none =>
      rw [hps] at hp
      obtain ⟨hne, _, hmax, havg, _, _⟩ := hmid p hp
      refine ⟨?_, ?_, havg⟩
      · intro e he
        rw [hmax]
        exact le_listMax he
      · rw [hmax]
        exact listMax_mem hne
    | some ps =>
      rw [hps] at hp
      rcases List.mem_append.mp hp with h' | h'
      · obtain ⟨hne, _, hmax, havg, _, _⟩ := hmid p h'
        refine ⟨?_, ?_, havg⟩
        · intro e he
          rw [hmax]
          exact le_listMax he
        · rw [hmax]
          exact listMax_mem hne
      · rw [List.mem_singleton] at h'
        subst h'
        have hne := hopen (by rw [hps]; rfl)
        exact ⟨fun e he => le_listMax he, listMax_mem hne.1, rfl⟩
  · intro p hp
    obtain ⟨_, _, _, _, hmin, havgd⟩ := hmid p hp
    exact ⟨fun d hd => ⟨hmin, listMin_le hd⟩, hmin, havgd⟩

/-- Closed instance of the C4 amended theorem at the mid-window pass of
the run [sampleIn, sampleFar]. -/
theorem detector_aggregates_bound_samples_witness :
    ((42 : ℚ) ≤ midPassFix.maxElevation ∧
     midPassFix.maxElevation ∈ midPassFix.elevs ∧
     midPassFix.avgElevation = listAvg midPassFix.elevs) ∧
    (midPassFix.minDistance = some (listMin midPassFix.dists) ∧
     listMin midPassFix.dists ≤ (50 : ℚ) ∧
     midPassFix.avgDistance = some (listAvg midPassFix.dists)) := by
  obtain ⟨h1, h2⟩ := detector_aggregates_bound_samples 100 [sampleIn, sampleFar]
  have hmem : midPassFix ∈ findSatellitePasses 100 [sampleIn, sampleFar] := by
    simp +decide [findSatellitePasses, detStep, detInit, sampleIn, sampleFar,
      midPassFix]
  have hmem2 : midPassFix ∈
      ([sampleIn, sampleFar].foldl (detStep 100) detInit).passes := by
    simp +decide [detStep, detInit, sampleIn, sampleFar, midPassFix]
  obtain ⟨ha, hb, hc⟩ := h1 midPassFix hmem
  obtain ⟨hd, he, hf⟩ := h2 midPassFix hmem2
  exact ⟨⟨ha 42 (by simp [midPassFix]), hb, hc⟩,
         ⟨he, (hd 50 (by simp [midPassFix])).2, hf⟩⟩

/-- C10: every pass the detector emits — closed mid-window or at the
window end — was aggregated from non-empty elevation and distance
accumulators, so the mean computations never divide by zero and the
max/min aggregates are never taken over an empty list. -/
theorem detector_accumulators_nonempty (md : ℚ) (samples : List Sample)
    (p : RawPass) (hp : p ∈ findSatellitePasses md samples) :
    p.elevs ≠ [] ∧ p.dists ≠ [] := by
  have hinv := stInv_foldl md samples stInv_detInit
  obtain ⟨hmid, hopen⟩ := hinv
  simp only [findSatellitePasses] at hp
  cases hps : (samples.foldl (detStep md) detInit).passStart with
  | none =>
    rw [hps] at hp
    obtain ⟨hne1, hne2, _⟩ := hmid p hp
    exact ⟨hne1, hne2⟩
  | some ps =>
    rw [hps] at hp
    rcases List.mem_append.mp hp with h' | h'
    · obtain ⟨hne1, hne2, _⟩ := hmid p h'
      exact ⟨hne1, hne2⟩
    · rw [List.mem_singleton] at h'
      subst h'
      exact hopen (by rw [hps]; rfl)

/-- Closed instance of the C10 theorem at the window-end pass of the run
[sampleIn]. -/
theorem detector_accumulators_nonempty_witness :
    tailPassFix.elevs ≠ [] ∧ tailPassFix.dists ≠ [] :=
  detector_accumulators_nonempty 100 [sampleIn] tailPassFix (by
    simp +decide [findSatellitePasses, detStep, detInit, sampleIn,
      tailPassFix])

end OpenWeather
